import Mathlib

/-!
Verification development for the ImHex application shell (`src/source/window.cpp`).

The definitions below are shallow embeddings of the C++ code: each definition
carries a doc comment naming the source function and lines it embeds.  Floats
are modelled as rationals (only a single multiplication by the UI scale factor
occurs, no float-specific behaviour is claimed), C++ containers as Lean lists,
and the GLFW/ImGui collaborator surface is restricted to the data the shell
itself computes.
-/

namespace ImHexWindow

/-! ## Recent-files list (`Events::FileLoaded` subscriber, window.cpp lines 85-117) -/

/-- Embedding of the deduplication loop in the `Events::FileLoaded` subscriber
(window.cpp lines 90-107): walk `m_recentFiles`, append each file to `uniques`
unless already present, and stop as soon as `uniques.size() > 5` (checked after
the conditional append, exactly as the C++ `break`). -/
def dedupRecent : List String → List String → List String
  | [], uniques => uniques
  | file :: rest, uniques =>
      let uniques' := if uniques.contains file then uniques else uniques ++ [file]
      if uniques'.length > 5 then uniques' else dedupRecent rest uniques'

/-- Embedding of one `Events::FileLoaded` event (window.cpp lines 85-107):
`m_recentFiles.push_front(path)` followed by the deduplication loop starting
from an empty `uniques` list. -/
def touchRecent (path : String) (files : List String) : List String :=
  dedupRecent (path :: files) []

/-- The recent-files list after a sequence of `FileLoaded` events, starting
from an empty list (the events fire in order, oldest first). -/
def recentAfter (paths : List String) : List String :=
  paths.foldl (fun files path => touchRecent path files) []

/-- Embedding of the startup load of the recent-files list (window.cpp lines
128-129): each persisted path is appended (`push_back`) to the initially empty
`m_recentFiles`, with no truncation. -/
def loadRecentFiles (persisted : List String) : List String :=
  persisted.foldl (fun files path => files ++ [path]) []

/-- First occurrences of the input not already in the accumulator, in input
order: the sequence of elements the dedup loop appends when no capacity break
occurs.  Used to characterise `dedupRecent`. -/
def freshOcc : List String → List String → List String
  | [], _ => []
  | x :: xs, seen =>
      if seen.contains x then freshOcc xs seen else x :: freshOcc xs (seen ++ [x])

/-! ## Deferred calls (`Window::loop`, window.cpp lines 150-152)

The queue itself (`View::getDeferedCalls`) lives outside `src/`; the spec
describes it as a FIFO queue of zero-argument actions that `deferCall`
appends to.  We model an action as a labelled node whose only effect is to
defer further actions.  The drain in `Window::loop` iterates the queue with
the iteration bounds captured at loop entry (the desugaring of the C++
range-`for`), so only the calls present when the drain starts are executed;
afterwards `View::getDeferedCalls().clear()` empties the queue, discarding
also any call deferred during the drain. -/

/-- A deferred action: executing it logs its label and defers `defers`. -/
inductive Action where
  | mk (label : Nat) (defers : List Action)

/-- Label of an action. -/
def Action.label : Action → Nat
  | .mk l _ => l

/-- Actions deferred (enqueued) when this action executes. -/
def Action.defers : Action → List Action
  | .mk _ d => d

/-- Embedding of `EventBus.deferCall`: append the action to the queue. -/
def deferCall (queue : List Action) (a : Action) : List Action :=
  queue ++ [a]

/-- Embedding of `getDeferedCalls().clear()` (window.cpp line 152). -/
def clearQueue (_ : List Action) : List Action := []

/-- Embedding of one drain pass (window.cpp lines 150-152): every call present
at loop entry runs in order (logging its label and appending its deferred
actions to the queue), then the whole queue — including anything deferred
during the drain — is cleared.  Returns (labels executed, queue afterwards). -/
def drainDeferred (queue : List Action) : List Nat × List Action :=
  let executed := queue.map Action.label
  let afterLoop := queue ++ (queue.map Action.defers).flatten
  (executed, clearQueue afterLoop)

/-- Per-frame logs of `n` successive drains starting from `queue`. -/
def drainFrames : Nat → List Action → List (List Nat)
  | 0, _ => []
  | n + 1, queue =>
      let r := drainDeferred queue
      r.1 :: drainFrames n r.2

/-! ## Views and the per-frame passes

A `View` (from the content registry) as the shell observes it: name, open
flag, availability predicate (sampled as a Bool for the frame), min-size hint
(floats modelled as rationals; only one multiplication by the scale factor
occurs) and the shortcut handler. -/

/-- A registered View as sampled during one frame. -/
structure DView where
  name : String
  isAvailable : Bool
  windowOpenState : Bool
  minW : Rat
  minH : Rat
  handleShortcut : Int → Int → Bool

/-- Embedding of the content draw pass in `Window::loop` (window.cpp lines
154-164): skip a view unless `isAvailable() && getWindowOpenState()`,
multiply its min-size hint componentwise by `m_globalScale`, and invoke
`drawContent()`; we record the invocations as (name, scaled min size). -/
def drawPass (globalScale : Rat) : List DView → List (String × Rat × Rat)
  | [] => []
  | v :: vs =>
      if !v.isAvailable || !v.windowOpenState then drawPass globalScale vs
      else (v.name, v.minW * globalScale, v.minH * globalScale)
            :: drawPass globalScale vs

/-- Embedding of the `anyViewOpen` fold in `Window::frameBegin` (window.cpp
lines 278-280): `anyViewOpen = anyViewOpen || (open && available)`. -/
def anyViewOpen (views : List DView) : Bool :=
  views.foldl (fun acc v => acc || (v.windowOpenState && v.isAvailable)) false

/-- The welcome screen is drawn when `!anyViewOpen` (window.cpp line 282). -/
def welcomeShown (views : List DView) : Bool :=
  !anyViewOpen views

/-- Embedding of the shortcut dispatch loop in `Window::frameBegin`
(window.cpp lines 268-273): walk the registry, and for each view with
`getWindowOpenState()` invoke `handleShortcut(key, mods)`, stopping (`break`)
at the first handler returning true.  Returns the views whose handler was
invoked, in order. -/
def offerShortcut (key mods : Int) : List DView → List DView
  | [] => []
  | v :: vs =>
      if v.windowOpenState then
        if v.handleShortcut key mods then [v]
        else v :: offerShortcut key mods vs
      else offerShortcut key mods vs

/-- Spec-side description of the dispatch, written from the spec's words for
comparison with `offerShortcut`: the open views in registration order, up to
and including the first one that reports having handled the shortcut. -/
def offerShortcutSpec (key mods : Int) (views : List DView) : List DView :=
  let opens := views.filter (fun v => v.windowOpenState)
  opens.takeWhile (fun v => !v.handleShortcut key mods) ++
    (opens.dropWhile (fun v => !v.handleShortcut key mods)).take 1

/-! ## Pending-shortcut state (`Window::s_currShortcut`) -/

/-- GLFW action code for a key press. -/
def GLFW_PRESS : Int := 1

/-- Embedding of the key callback installed in `Window::initGLFW` (window.cpp
lines 438-454): only a press overwrites `s_currShortcut`; a release leaves it
unchanged. -/
def keyCallback (currShortcut : Int × Int) (key mods action : Int) :
    Int × Int :=
  if action = GLFW_PRESS then (key, mods) else currShortcut

/-- Embedding of the dispatch block in `Window::frameBegin` (window.cpp lines
267-276): if the pending key is not -1, offer the shortcut to the open views
and reset `s_currShortcut` to (-1, -1) unconditionally; otherwise do nothing.
Returns (views offered the shortcut, pending state afterwards). -/
def shortcutDispatchBlock (currShortcut : Int × Int) (views : List DView) :
    List DView × (Int × Int) :=
  if currShortcut.1 ≠ -1 then
    (offerShortcut currShortcut.1 currShortcut.2 views, (-1, -1))
  else ([], currShortcut)

/-! ## Frame event trace (`Window::loop` + `Window::frameBegin`)

One loop iteration of `Window::loop` (window.cpp lines 146-175) performs:
`frameBegin()` — which draws the menu bar (each view's `drawMenu()`),
dispatches a pending shortcut, and decides the welcome screen — then drains
the deferred calls, then draws the open and available views' content, then
`View::drawCommonInterfaces()`. -/

/-- Events of one frame that the claims talk about. -/
inductive FrameEv where
  | menuDraw (name : String)
  | shortcutDispatch
  | welcome
  | deferredRun (idx : Nat)
  | drawContent (name : String)
  | drawCommon
deriving DecidableEq

/-- Embedding of `Window::frameBegin` (window.cpp lines 205-298) as the events
it produces, in program order: per-view menu hooks (line 243-245), the
shortcut dispatch block when a shortcut is pending (lines 267-276), then the
welcome screen when no view is open and available (lines 278-294). -/
def frameBeginTrace (pending : Bool) (views : List DView) : List FrameEv :=
  views.map (fun v => FrameEv.menuDraw v.name) ++
    (if pending then [FrameEv.shortcutDispatch] else []) ++
    (if welcomeShown views then [FrameEv.welcome] else [])

/-- Embedding of one iteration of `Window::loop` (window.cpp lines 146-175) as
an event trace: `frameBegin()`, then the deferred-call drain (lines 150-152,
`deferredCount` queued calls), then the content draw pass (lines 154-164),
then `View::drawCommonInterfaces()` (line 166). -/
def frameTrace (pending : Bool) (deferredCount : Nat) (globalScale : Rat)
    (views : List DView) : List FrameEv :=
  frameBeginTrace pending views ++
    (List.range deferredCount).map FrameEv.deferredRun ++
    (drawPass globalScale views).map (fun t => FrameEv.drawContent t.1) ++
    [FrameEv.drawCommon]

/-! ## Shutdown sequence (`Window::~Window`, window.cpp lines 132-144) -/

/-- Event ids the shell itself subscribes to. -/
inductive EventId where
  | settingsChanged
  | fileLoaded
  | closeImHex
deriving DecidableEq

/-- The events the `Window` constructor subscribes to (window.cpp lines 66,
85 and 119): `SettingsChanged`, `FileLoaded` and `CloseImHex`. -/
def shellSubscribedEvents : List EventId :=
  [EventId.settingsChanged, EventId.fileLoaded, EventId.closeImHex]

/-- Steps of the destructor. -/
inductive TeardownStep where
  | deinitImGui
  | deinitGLFW
  | storeSettings
  | deleteView (name : String)
  | clearViewRegistry
  | deinitPlugins
  | unsubscribe (event : EventId)
deriving DecidableEq

/-- Embedding of `Window::~Window` (window.cpp lines 132-144) as the ordered
list of teardown steps it performs: `deinitImGui()`, `deinitGLFW()`,
`ContentRegistry::Settings::store()`, `delete view` for every registry entry
in order, `getEntries().clear()`, `deinitPlugins()`, and finally
`EventManager::unsubscribe(Events::SettingsChanged, this)` — the only
unsubscription the destructor performs. -/
def destructorTrace (views : List String) : List TeardownStep :=
  [TeardownStep.deinitImGui, TeardownStep.deinitGLFW,
   TeardownStep.storeSettings] ++
    views.map TeardownStep.deleteView ++
    [TeardownStep.clearViewRegistry, TeardownStep.deinitPlugins,
     TeardownStep.unsubscribe EventId.settingsChanged]

/-- Phase of a teardown step in the claimed shutdown order: UI/backend
teardown, settings persistence, view destruction, plugin unload,
subscription removal. -/
def teardownPhase : TeardownStep → Nat
  | .deinitImGui => 0
  | .deinitGLFW => 0
  | .storeSettings => 1
  | .deleteView _ => 2
  | .clearViewRegistry => 2
  | .deinitPlugins => 3
  | .unsubscribe _ => 4

/-! ## Plugin initialization (`Window::initPlugins`, window.cpp lines 550-559)

`PluginHandler` and `Plugin` live in `helpers/plugin_handler.hpp`, which is
not under `src/`; only the caller `Window::initPlugins` is.  The missing
parts are modelled from the spec (§4.5, §7): loading a nonexistent directory
produces no plugins (surfaced to this caller as the `std::runtime_error` its
`catch` absorbs), and a module's failing init entrypoint is a per-module
status, not an escaping error. -/

/-- A loadable plugin module: its name and whether its `initializePlugin()`
entrypoint succeeds. -/
structure Plugin where
  name : String
  initSucceeds : Bool
deriving DecidableEq

/-- Modelled from the spec: `PluginHandler::load` (declared in
helpers/plugin_handler.hpp, not under src/).  Enumerates the loadable modules
of the plugin directory; a nonexistent directory yields no plugin set — the
`none` here stands for the thrown `std::runtime_error` that
`Window::initPlugins` catches. -/
def pluginHandlerLoad (directoryExists : Bool) (modules : List Plugin) :
    Option (List Plugin) :=
  if directoryExists then some modules else none

/-- Outcome of `Window::initPlugins`: the loaded plugin set, the init
entrypoints invoked (in order), the modules whose init succeeded, and whether
an error escaped to the caller. -/
structure PluginInitResult where
  plugins : List Plugin
  initCalls : List String
  initialized : List String
  errorEscaped : Bool
deriving DecidableEq

/-- Embedding of `Window::initPlugins` (window.cpp lines 550-559): the `try`
block calls `PluginHandler::load`; a `std::runtime_error` makes the function
`return` with no plugins and no error escaping.  Otherwise every loaded
plugin's `initializePlugin()` is invoked once, in order, ignoring its
outcome, so a failing module does not stop the loop.  The `initialized` set
(which modules end up initialized) is modelled from the spec §4.5: the
modules whose entrypoint succeeded. -/
def initPlugins (directoryExists : Bool) (modules : List Plugin) :
    PluginInitResult :=
  match pluginHandlerLoad directoryExists modules with
  | none => ⟨[], [], [], false⟩
  | some ps =>
      ⟨ps, ps.map Plugin.name,
       (ps.filter Plugin.initSucceeds).map Plugin.name, false⟩

/-! ## Settings handler (window.cpp lines 29-46)

`ImHexSettingsHandler_WriteAll` emits a `[ImHex][General]` header (the
TypeName installed at window.cpp line 536), one `Name=IntegerValue` line per
registered view, and a blank line.  `ImHexSettingsHandler_ReadLine` runs
`sscanf(line, "<name>=%d", &view->getWindowOpenState())` for every view.  The
`sscanf` literal/`%d` semantics are embedded below for names free of `%`
(a `%` inside a name would itself become a conversion specifier). -/

/-- A view as the settings handler sees it: display name and open state. -/
structure VState where
  name : String
  windowOpen : Bool
deriving DecidableEq

/-- Literal-part matching of `sscanf`: a whitespace character in the format
skips any run of whitespace in the input; any other format character must
equal the next input character.  Returns the unconsumed input on success. -/
def scanLiteral : List Char → List Char → Option (List Char)
  | [], input => some input
  | c :: fmt, input =>
      if c.isWhitespace then
        scanLiteral fmt (input.dropWhile Char.isWhitespace)
      else
        match input with
        | [] => none
        | d :: rest => if d = c then scanLiteral fmt rest else none

/-- Numeric value of a digit run. -/
def digitsToNat (ds : List Char) : Nat :=
  ds.foldl (fun n c => 10 * n + (c.toNat - 48)) 0

/-- The `%d` conversion of `sscanf`: skip whitespace, then an optional sign
followed by at least one decimal digit; trailing input is left unread. -/
def scanIntConv (input : List Char) : Option Int :=
  match input.dropWhile Char.isWhitespace with
  | '-' :: rest =>
      let ds := rest.takeWhile Char.isDigit
      if ds.isEmpty then none else some (-(digitsToNat ds : Int))
  | '+' :: rest =>
      let ds := rest.takeWhile Char.isDigit
      if ds.isEmpty then none else some ((digitsToNat ds : Int))
  | s =>
      let ds := s.takeWhile Char.isDigit
      if ds.isEmpty then none else some ((digitsToNat ds : Int))

/-- Embedding of `sscanf(line, (name + "=%d").c_str(), &out)` as built in
`ImHexSettingsHandler_ReadLine` (window.cpp lines 31-32): match the name and
the `=` literally, then convert one integer; no conversion happens if the
literal part fails. -/
def sscanfNameEq (name : String) (line : String) : Option Int :=
  match scanLiteral (name.data ++ ['=']) line.data with
  | none => none
  | some rest => scanIntConv rest

/-- Effect of one `sscanf` call of `ImHexSettingsHandler_ReadLine` on one
view: a successful conversion stores the parsed integer into the view's
`bool` open state (nonzero becomes `true`); otherwise the view is untouched. -/
def readLineView (line : String) (v : VState) : VState :=
  match sscanfNameEq v.name line with
  | some n => { v with windowOpen := n != 0 }
  | none => v

/-- Embedding of `ImHexSettingsHandler_ReadLine` (window.cpp lines 29-34):
the handler loops over every registered view and `sscanf`s the line against
that view's `"<name>=%d"` format. -/
def ImHexSettingsHandler_ReadLine (views : List VState) (line : String) :
    List VState :=
  views.map (readLineView line)

/-- The `Name=IntegerValue` line `ImHexSettingsHandler_WriteAll` emits for
one view (window.cpp line 42, `"%s=%d\n"` of the `bool` open state). -/
def viewLine (v : VState) : String :=
  v.name ++ "=" ++ (if v.windowOpen then "1" else "0")

/-- Embedding of `ImHexSettingsHandler_WriteAll` (window.cpp lines 36-46) as
the list of lines it appends to the buffer: the `[ImHex][General]` header,
one `Name=IntegerValue` line per view in registry order, and a blank line. -/
def ImHexSettingsHandler_WriteAll (views : List VState) : List String :=
  "[ImHex][General]" :: views.map viewLine ++ [""]

/-- Feeding a sequence of emitted lines back through the line reader. -/
def readAllLines (views : List VState) (lines : List String) : List VState :=
  lines.foldl ImHexSettingsHandler_ReadLine views

/-- A display name is plain when it contains no whitespace, no `=` and no
`%`: exactly the names for which the `sscanf` format behaves as verbatim
matching. -/
def plainName (s : String) : Bool :=
  s.data.all (fun c => !c.isWhitespace && c != '=' && c != '%')

/-! ## Lemmas about the recent-files embedding -/

lemma dedupRecent_eq (l : List String) :
    ∀ u : List String, u.length ≤ 5 →
      dedupRecent l u = u ++ (freshOcc l u).take (6 - u.length) := by
  induction l with
  | nil => intro u _; simp [dedupRecent, freshOcc]
  | cons x xs ih =>
    intro u hu
    by_cases hc : u.contains x = true
    · have hnot : ¬ u.length > 5 := by omega
      simp only [dedupRecent, freshOcc, hc, if_true, if_neg hnot]
      exact ih u hu
    · have hc' : u.contains x = false := by simpa using hc
      simp only [dedupRecent, freshOcc, hc', Bool.false_eq_true, if_false]
      by_cases h5 : u.length = 5
      · have hgt : (u ++ [x]).length > 5 := by simp [h5]
        rw [if_pos hgt]
        have h1 : 6 - u.length = 1 := by omega
        simp [h1]
      · have hlen : (u ++ [x]).length = u.length + 1 := by simp
        have hle : (u ++ [x]).length ≤ 5 := by omega
        have hgt : ¬ (u ++ [x]).length > 5 := by omega
        rw [if_neg hgt, ih (u ++ [x]) hle]
        have h1 : 6 - u.length = (6 - (u ++ [x]).length) + 1 := by
          rw [hlen]; omega
        rw [h1, List.take_succ_cons, List.append_assoc, List.singleton_append]

lemma freshOcc_of_nodup (s : List String) :
    ∀ seen : List String, s.Nodup →
      freshOcc s seen = s.filter (fun x => !seen.contains x) := by
  induction s with
  | nil => intro seen _; simp [freshOcc]
  | cons x xs ih =>
    intro seen hn
    have hx : x ∉ xs := (List.nodup_cons.mp hn).1
    have hxs : xs.Nodup := (List.nodup_cons.mp hn).2
    by_cases hc : seen.contains x = true
    · simp only [freshOcc, hc, if_true, List.filter_cons, Bool.not_true,
        Bool.false_eq_true, if_false]
      rw [ih seen hxs]
    · have hc' : seen.contains x = false := by simpa using hc
      simp only [freshOcc, hc', Bool.false_eq_true, if_false,
        List.filter_cons, Bool.not_false, if_true]
      rw [ih (seen ++ [x]) hxs]
      congr 1
      apply List.filter_congr
      intro z hz
      have hzx : z ≠ x := fun h => hx (h ▸ hz)
      by_cases hzs : z ∈ seen <;> simp [List.elem_iff, hzs, hzx]

lemma touchRecent_eq (p : String) (s : List String) (hs : s.Nodup) :
    touchRecent p s = (p :: s.erase p).take 6 := by
  unfold touchRecent
  rw [dedupRecent_eq _ [] (by simp)]
  have h1 : freshOcc (p :: s) [] = p :: freshOcc s [p] := by
    simp [freshOcc]
  rw [h1, freshOcc_of_nodup s [p] hs, hs.erase_eq_filter p]
  simp only [List.nil_append, List.length_nil, Nat.sub_zero]
  congr 2
  apply List.filter_congr
  intro z _
  by_cases hzp : z = p <;> simp [List.elem_iff, hzp]

lemma touchRecent_nodup_len (p : String) (s : List String) (hs : s.Nodup) :
    (touchRecent p s).Nodup ∧ (touchRecent p s).length ≤ 6 := by
  rw [touchRecent_eq p s hs]
  constructor
  · apply List.Nodup.sublist (List.take_sublist _ _)
    refine List.nodup_cons.mpr ⟨?_, hs.erase p⟩
    intro hmem
    exact absurd (hs.mem_erase_iff.mp hmem).1 (by simp)
  · simp [List.length_take]

lemma foldl_touch_inv (l : List String) :
    ∀ s : List String, s.Nodup → s.length ≤ 6 →
      (l.foldl (fun files path => touchRecent path files) s).Nodup ∧
      (l.foldl (fun files path => touchRecent path files) s).length ≤ 6 := by
  induction l with
  | nil => intro s hs hl; exact ⟨hs, hl⟩
  | cons p rest ih =>
    intro s hs _
    have h := touchRecent_nodup_len p s hs
    exact ih (touchRecent p s) h.1 h.2

lemma recentAfter_inv (l : List String) :
    (recentAfter l).Nodup ∧ (recentAfter l).length ≤ 6 :=
  foldl_touch_inv l [] (by simp) (by simp)

/-! ## Claim theorems: C1 and C6 -/

/-- C1 counterexample: the claim bounds the recent-files list by 5, but after
the six distinct `FileLoaded` events "a".."f" the list produced by the
subscriber's dedup loop (which breaks only once `uniques.size() > 5`, i.e.
after the sixth insertion) holds six entries. -/
theorem C1_recent_files_counterexample :
    recentAfter ["a", "b", "c", "d", "e", "f"]
      = ["f", "e", "d", "c", "b", "a"] ∧
    (recentAfter ["a", "b", "c", "d", "e", "f"]).length = 6 := by
  constructor <;> decide

/-- C1 (amended): for every sequence of `FileLoaded` events the recent-files
list has length at most 6 (not 5), contains no duplicate path, and an event for
path `p` removes `p`'s old position and reinserts it at the front, keeping the
first six entries; touching "a","b","c","a" yields ["a","c","b"]. -/
theorem C1_recent_files_amended :
    (∀ l : List String,
        (recentAfter l).Nodup ∧ (recentAfter l).length ≤ 6) ∧
    (∀ (l : List String) (p : String),
        recentAfter (l ++ [p]) = (p :: (recentAfter l).erase p).take 6) ∧
    recentAfter ["a", "b", "c", "a"] = ["a", "c", "b"] := by
  refine ⟨recentAfter_inv, fun l p => ?_, by decide⟩
  have h : recentAfter (l ++ [p]) = touchRecent p (recentAfter l) := by
    simp [recentAfter, List.foldl_append]
  rw [h, touchRecent_eq p (recentAfter l) (recentAfter_inv l).1]

/-- C6 counterexample: the claim says a persisted sequence longer than 5 is
truncated to capacity 5 at load, but the startup loop appends every persisted
entry: six stored paths yield an in-memory list of six. -/
theorem C6_load_recent_counterexample :
    loadRecentFiles ["a", "b", "c", "d", "e", "f"]
      = ["a", "b", "c", "d", "e", "f"] ∧
    (loadRecentFiles ["a", "b", "c", "d", "e", "f"]).length = 6 := by
  constructor <;> decide

/-- C6 (amended): loading the recent-files list at startup copies the persisted
sequence into the in-memory list unchanged — stored order is preserved and no
truncation to capacity happens at load time. -/
theorem C6_load_recent_amended :
    ∀ persisted : List String, loadRecentFiles persisted = persisted := by
  have h : ∀ (l s : List String),
      l.foldl (fun files path => files ++ [path]) s = s ++ l := by
    intro l
    induction l with
    | nil => intro s; simp
    | cons p rest ih => intro s; simp [ih]
  intro persisted
  simp [loadRecentFiles, h]

/-! ## Lemmas about the per-frame passes -/

lemma foldl_or_any (l : List DView) :
    ∀ b : Bool,
      l.foldl (fun acc v => acc || (v.windowOpenState && v.isAvailable)) b
        = (b || l.any (fun v => v.windowOpenState && v.isAvailable)) := by
  induction l with
  | nil => intro b; rw [List.foldl_nil, List.any_nil, Bool.or_false]
  | cons v vs ih =>
      intro b
      rw [List.foldl_cons, ih, List.any_cons, Bool.or_assoc]

lemma anyViewOpen_eq_any (views : List DView) :
    anyViewOpen views
      = views.any (fun v => v.windowOpenState && v.isAvailable) := by
  rw [anyViewOpen, foldl_or_any, Bool.false_or]

lemma idx_ge_of_not_mem_left {α : Type} {a b : List α} {i : ℕ} {x : α}
    (h : (a ++ b)[i]? = some x) (hx : x ∉ a) : a.length ≤ i := by
  by_contra hlt
  push_neg at hlt
  rw [List.getElem?_append, if_pos hlt] at h
  exact hx (List.getElem?_mem h)

lemma idx_lt_of_not_mem_right {α : Type} {a b : List α} {i : ℕ} {x : α}
    (h : (a ++ b)[i]? = some x) (hx : x ∉ b) : i < a.length := by
  by_contra hge
  push_neg at hge
  rw [List.getElem?_append_right hge] at h
  exact hx (List.getElem?_mem h)

lemma not_mem_frameBeginTrace {x : FrameEv} (p : Bool) (views : List DView)
    (h1 : ∀ n, x ≠ FrameEv.menuDraw n) (h2 : x ≠ FrameEv.shortcutDispatch)
    (h3 : x ≠ FrameEv.welcome) : x ∉ frameBeginTrace p views := by
  intro hx
  simp only [frameBeginTrace, List.mem_append, List.mem_map] at hx
  rcases hx with (⟨v, _, hv⟩ | hx) | hx
  · exact h1 v.name hv.symm
  · by_cases hp : p = true
    · rw [if_pos hp] at hx
      exact h2 (List.mem_singleton.mp hx)
    · simp only [hp, if_false] at hx
      exact (List.not_mem_nil x) hx
  · by_cases hw : welcomeShown views = true
    · rw [if_pos hw] at hx
      exact h3 (List.mem_singleton.mp hx)
    · simp only [hw, if_false] at hx
      exact (List.not_mem_nil x) hx

lemma mem_deferredSeg {x : FrameEv} {n : ℕ}
    (hx : x ∈ (List.range n).map FrameEv.deferredRun) :
    ∃ k, x = FrameEv.deferredRun k := by
  rcases List.mem_map.mp hx with ⟨k, _, hk⟩
  exact ⟨k, hk.symm⟩

lemma mem_drawSeg {x : FrameEv} {g : Rat} {views : List DView}
    (hx : x ∈ (drawPass g views).map (fun t => FrameEv.drawContent t.1)) :
    ∃ nm, x = FrameEv.drawContent nm := by
  rcases List.mem_map.mp hx with ⟨t, _, ht⟩
  exact ⟨t.1, ht.symm⟩

/-! ## Lemmas about the settings handler embedding -/

lemma map_self_of {α : Type} (f : α → α) :
    ∀ l : List α, (∀ x ∈ l, f x = x) → l.map f = l := by
  intro l
  induction l with
  | nil => intro _; rfl
  | cons x xs ih =>
      intro h
      rw [List.map_cons, h x (List.mem_cons_self x xs),
        ih (fun y hy => h y (List.mem_cons_of_mem x hy))]

lemma plainName_mem {s : String} (h : plainName s = true) :
    ∀ c ∈ s.data, c.isWhitespace = false ∧ c ≠ '=' := by
  intro c hc
  have h' := List.all_eq_true.mp h c hc
  simp only [Bool.and_eq_true, Bool.not_eq_true', bne_iff_ne] at h'
  exact ⟨h'.1.1, h'.1.2⟩

lemma name_fmt_not_ws {n : String} (h : plainName n = true) :
    ∀ c ∈ n.data ++ ['='], c.isWhitespace = false := by
  intro c hc
  rcases List.mem_append.mp hc with hc | hc
  · exact (plainName_mem h c hc).1
  · rw [List.mem_singleton.mp hc]
    decide

lemma eq_sign_not_mem_name {n : String} (h : plainName n = true) :
    '=' ∉ n.data := by
  intro hmem
  exact (plainName_mem h '=' hmem).2 rfl

lemma scanLiteral_append (fmt : List Char)
    (hfmt : ∀ c ∈ fmt, c.isWhitespace = false) (rest : List Char) :
    scanLiteral fmt (fmt ++ rest) = some rest := by
  induction fmt with
  | nil => rfl
  | cons c fmt' ih =>
      have hc : c.isWhitespace = false := hfmt c (List.mem_cons_self c fmt')
      simp only [scanLiteral, hc, Bool.false_eq_true, if_false,
        List.cons_append, if_pos rfl]
      exact ih (fun d hd => hfmt d (List.mem_cons_of_mem c hd))

lemma scanLiteral_some (fmt : List Char)
    (hfmt : ∀ c ∈ fmt, c.isWhitespace = false) :
    ∀ input rest : List Char,
      scanLiteral fmt input = some rest → input = fmt ++ rest := by
  induction fmt with
  | nil =>
      intro input rest h
      simpa [scanLiteral] using h
  | cons c fmt' ih =>
      intro input rest h
      have hc : c.isWhitespace = false := hfmt c (List.mem_cons_self c fmt')
      cases input with
      | nil =>
          simp only [scanLiteral, hc, Bool.false_eq_true, if_false] at h
          exact absurd h (by simp)
      | cons d input' =>
          simp only [scanLiteral, hc, Bool.false_eq_true, if_false] at h
          by_cases hd : d = c
          · rw [if_pos hd] at h
            have h' := ih (fun e he => hfmt e (List.mem_cons_of_mem c he))
              input' rest h
            rw [hd, h', List.cons_append]
          · rw [if_neg hd] at h
            exact absurd h (by simp)

lemma sscanfNameEq_self (n : String) (h : plainName n = true) (tail : String) :
    sscanfNameEq n (n ++ "=" ++ tail) = scanIntConv tail.data := by
  unfold sscanfNameEq
  have hdata : (n ++ "=" ++ tail).data = (n.data ++ ['=']) ++ tail.data := rfl
  rw [hdata, scanLiteral_append _ (name_fmt_not_ws h) tail.data]

lemma eq_of_names_line {a : List Char} :
    ∀ {b x y : List Char}, '=' ∉ a → '=' ∉ b →
      a ++ '=' :: x = b ++ '=' :: y → a = b := by
  induction a with
  | nil =>
      intro b x y _ hb h
      cases b with
      | nil => rfl
      | cons d b' =>
          rw [List.nil_append, List.cons_append, List.cons.injEq] at h
          exact absurd (h.1 ▸ List.mem_cons_self d b') (by
            intro hmem
            exact hb (h.1 ▸ hmem))
  | cons c a' ih =>
      intro b x y ha hb h
      cases b with
      | nil =>
          rw [List.cons_append, List.nil_append, List.cons.injEq] at h
          exact absurd (h.1 ▸ List.mem_cons_self c a') (by
            intro _
            exact ha (h.1 ▸ List.mem_cons_self c a'))
      | cons d b' =>
          rw [List.cons_append, List.cons_append, List.cons.injEq] at h
          have ha' : '=' ∉ a' := fun hm => ha (List.mem_cons_of_mem c hm)
          have hb' : '=' ∉ b' := fun hm => hb (List.mem_cons_of_mem d hm)
          rw [h.1, ih ha' hb' h.2]

lemma sscanfNameEq_mismatch {v w : String} (hv : plainName v = true)
    (hw : plainName w = true) (hne : v ≠ w) (tail : String) :
    sscanfNameEq v (w ++ "=" ++ tail) = none := by
  unfold sscanfNameEq
  cases hscan : scanLiteral (v.data ++ ['=']) (w ++ "=" ++ tail).data with
  | none => rfl
  | some rest =>
      exfalso
      have hinput := scanLiteral_some _ (name_fmt_not_ws hv) _ _ hscan
      have hdata : (w ++ "=" ++ tail).data = w.data ++ '=' :: tail.data := by
        show (w.data ++ ['=']) ++ tail.data = w.data ++ '=' :: tail.data
        rw [List.append_assoc, List.singleton_append]
      rw [hdata, List.append_assoc, List.singleton_append] at hinput
      exact hne (String.ext (eq_of_names_line (eq_sign_not_mem_name hv)
        (eq_sign_not_mem_name hw) hinput.symm))

lemma sscanfNameEq_no_eq_sign {v : String} (hv : plainName v = true)
    {line : String} (hline : '=' ∉ line.data) :
    sscanfNameEq v line = none := by
  unfold sscanfNameEq
  cases hscan : scanLiteral (v.data ++ ['=']) line.data with
  | none => rfl
  | some rest =>
      exfalso
      apply hline
      rw [scanLiteral_some _ (name_fmt_not_ws hv) _ _ hscan]
      exact List.mem_append.mpr (Or.inl (List.mem_append.mpr
        (Or.inr (List.mem_singleton.mpr rfl))))

lemma readLineView_of_none {line : String} {v : VState}
    (h : sscanfNameEq v.name line = none) : readLineView line v = v := by
  simp [readLineView, h]

lemma sscanfNameEq_viewLine_ne {x o : VState} (hx : plainName x.name = true)
    (ho : plainName o.name = true) (hne : x.name ≠ o.name) :
    sscanfNameEq x.name (viewLine o) = none := by
  unfold viewLine
  exact sscanfNameEq_mismatch hx ho hne _

lemma VState.ext' {a b : VState} (h1 : a.name = b.name)
    (h2 : a.windowOpen = b.windowOpen) : a = b := by
  cases a
  cases b
  simp only at h1 h2
  rw [h1, h2]

lemma readLineView_own (o c : VState) (hname : c.name = o.name)
    (hplain : plainName o.name = true) :
    readLineView (viewLine o) c = o := by
  unfold readLineView viewLine
  rw [hname, sscanfNameEq_self o.name hplain]
  cases hw : o.windowOpen
  · have hzero : scanIntConv (String.data "0") = some 0 := by decide
    simp only [hw, Bool.false_eq_true, if_false, hzero]
    refine VState.ext' rfl ?_
    show (0 != 0) = o.windowOpen
    rw [hw]
    decide
  · have hone : scanIntConv (String.data "1") = some 1 := by decide
    simp only [hw, if_true, hone]
    refine VState.ext' rfl ?_
    show (1 != 0) = o.windowOpen
    rw [hw]
    decide

lemma foldl_readLine_cons (L : List String) :
    ∀ (v : VState) (vs : List VState),
      L.foldl ImHexSettingsHandler_ReadLine (v :: vs)
        = L.foldl (fun w l => readLineView l w) v ::
            L.foldl ImHexSettingsHandler_ReadLine vs := by
  induction L with
  | nil => intro v vs; rfl
  | cons l L' ih =>
      intro v vs
      simp only [List.foldl_cons]
      rw [show ImHexSettingsHandler_ReadLine (v :: vs) l
            = readLineView l v :: ImHexSettingsHandler_ReadLine vs l from rfl]
      exact ih _ _

lemma foldl_view_unchanged (L : List String) :
    ∀ v : VState, (∀ l ∈ L, sscanfNameEq v.name l = none) →
      L.foldl (fun w l => readLineView l w) v = v := by
  induction L with
  | nil => intro v _; rfl
  | cons l L' ih =>
      intro v h
      simp only [List.foldl_cons,
        readLineView_of_none (h l (List.mem_cons_self l L'))]
      exact ih v (fun l' hl' => h l' (List.mem_cons_of_mem l hl'))

lemma readBody (orig : List VState) :
    ∀ cur : List VState,
      (∀ v ∈ orig, plainName v.name = true) →
      orig.Pairwise (fun a b => a.name ≠ b.name) →
      cur.map VState.name = orig.map VState.name →
      (orig.map viewLine).foldl ImHexSettingsHandler_ReadLine cur = orig := by
  induction orig with
  | nil =>
      intro cur _ _ hmap
      have hc : cur = [] := by simpa using hmap
      rw [hc]
      rfl
  | cons o os ih =>
      intro cur hplain hpw hmap
      cases cur with
      | nil => simp at hmap
      | cons c cs =>
          simp only [List.map_cons, List.cons.injEq] at hmap
          obtain ⟨hcn, hcs⟩ := hmap
          have hop : plainName o.name = true :=
            hplain o (List.mem_cons_self o os)
          have hosplain : ∀ v ∈ os, plainName v.name = true :=
            fun v hv => hplain v (List.mem_cons_of_mem o hv)
          have hpw' := List.pairwise_cons.mp hpw
          have hcsplain : ∀ x ∈ cs, plainName x.name = true := by
            intro x hx
            have hxn : x.name ∈ os.map VState.name := by
              rw [← hcs]
              exact List.mem_map.mpr ⟨x, hx, rfl⟩
            rcases List.mem_map.mp hxn with ⟨b, hb, hbn⟩
            rw [← hbn]
            exact hosplain b hb
          have hcsne : ∀ x ∈ cs, x.name ≠ o.name := by
            intro x hx
            have hxn : x.name ∈ os.map VState.name := by
              rw [← hcs]
              exact List.mem_map.mpr ⟨x, hx, rfl⟩
            rcases List.mem_map.mp hxn with ⟨b, hb, hbn⟩
            rw [← hbn]
            exact fun hcontra => hpw'.1 b hb hcontra.symm
          simp only [List.map_cons, List.foldl_cons]
          have hhead : ImHexSettingsHandler_ReadLine (c :: cs) (viewLine o)
              = o :: cs := by
            show readLineView (viewLine o) c
                :: cs.map (readLineView (viewLine o)) = o :: cs
            rw [readLineView_own o c hcn hop]
            rw [map_self_of (readLineView (viewLine o)) cs
              (fun x hx => readLineView_of_none
                (sscanfNameEq_viewLine_ne (hcsplain x hx) hop (hcsne x hx)))]
          rw [hhead, foldl_readLine_cons]
          have hone : (os.map viewLine).foldl
              (fun w l => readLineView l w) o = o := by
            apply foldl_view_unchanged
            intro l hl
            rcases List.mem_map.mp hl with ⟨b, hb, hbl⟩
            rw [← hbl]
            exact sscanfNameEq_viewLine_ne hop (hosplain b hb)
              (hpw'.1 b hb)
          rw [hone, ih cs hosplain hpw'.2 hcs]

/-! ## Claim theorems: C2 -/

/-- C2 counterexample: one queued action (label 0) defers a second action
(label 1) from within the drain.  The claim says action 1 executes on the next
drain; in the code the `clear()` after the loop discards it, so the second
drain executes nothing and label 1 never runs. -/
theorem C2_deferred_counterexample :
    drainFrames 2 [Action.mk 0 [Action.mk 1 []]] = [[0], []] ∧
    (drainFrames 2 [Action.mk 0 [Action.mk 1 []]]).flatten = [0] := by
  constructor <;> rfl

/-- C2 (amended): the calls present when a drain starts execute in FIFO order,
each exactly once, during that drain; but a call deferred from within a drain
is discarded by the end-of-drain `clear()` and never executes — the queue is
empty after every drain, so every later drain executes nothing. -/
theorem C2_deferred_amended :
    (∀ queue : List Action,
        (drainDeferred queue).1 = queue.map Action.label) ∧
    (∀ queue : List Action, (drainDeferred queue).2 = []) ∧
    (∀ (queue : List Action) (n : Nat),
        drainFrames (n + 1) queue
          = queue.map Action.label :: List.replicate n []) := by
  have hempty : ∀ n : Nat, drainFrames n [] = List.replicate n [] := by
    intro n
    induction n with
    | zero => rfl
    | succ m ih =>
        simp only [drainFrames, drainDeferred, clearQueue, ih]
        rw [List.replicate_succ]
        rfl
  exact ⟨fun _ => rfl, fun _ => rfl,
    fun queue n => by simp [drainFrames, drainDeferred, clearQueue, hempty]⟩

/-! ## Claim theorems: C4, C7, C8, C10 -/

/-- C4: plugin initialization on a nonexistent directory yields an empty,
non-error plugin set with no init entrypoint invoked; when modules load, each
module's init entrypoint is invoked exactly once, in order, regardless of any
module's failure (no abort, no escaping error); concretely, one failing module
between two succeeding ones leaves exactly the two succeeding modules
initialized. -/
theorem C4_plugin_init :
    (∀ modules : List Plugin,
        initPlugins false modules = ⟨[], [], [], false⟩) ∧
    (∀ modules : List Plugin,
        (initPlugins true modules).initCalls = modules.map Plugin.name ∧
        (initPlugins true modules).errorEscaped = false) ∧
    initPlugins true [⟨"ok1", true⟩, ⟨"bad", false⟩, ⟨"ok2", true⟩]
      = ⟨[⟨"ok1", true⟩, ⟨"bad", false⟩, ⟨"ok2", true⟩],
         ["ok1", "bad", "ok2"], ["ok1", "ok2"], false⟩ := by
  refine ⟨fun modules => rfl, fun modules => ⟨rfl, rfl⟩, by decide⟩

/-- C7: the pending shortcut is offered to exactly the open views, in
registration order, stopping at (and including) the first view whose handler
returns true; every offered view is open, and views past the first handler
are never offered. -/
theorem C7_shortcut_first_match :
    ∀ (key mods : Int) (views : List DView),
      offerShortcut key mods views = offerShortcutSpec key mods views ∧
      ∀ v ∈ offerShortcut key mods views, v.windowOpenState = true := by
  intro key mods views
  constructor
  · induction views with
    | nil => rfl
    | cons v vs ih =>
      by_cases ho : v.windowOpenState = true
      · by_cases hh : v.handleShortcut key mods = true
        · simp [offerShortcut, offerShortcutSpec, ho, hh,
            List.filter_cons, List.takeWhile_cons, List.dropWhile_cons]
        · simp only [offerShortcut, offerShortcutSpec, ho, hh,
            List.filter_cons, List.takeWhile_cons, List.dropWhile_cons,
            Bool.false_eq_true, if_false, if_true, Bool.not_false,
            Bool.not_true] at ih ⊢
          simp only [ih]
          rfl
      · have ho' : v.windowOpenState = false := by simpa using ho
        simp only [offerShortcut, offerShortcutSpec, ho',
          Bool.false_eq_true, if_false, List.filter_cons] at ih ⊢
        exact ih
  · induction views with
    | nil => intro v hv; exact absurd hv (List.not_mem_nil v)
    | cons w vs ih =>
      intro v hv
      by_cases ho : w.windowOpenState = true
      · by_cases hh : w.handleShortcut key mods = true
        · simp only [offerShortcut, ho, hh, if_true] at hv
          rw [List.mem_singleton.mp hv]
          exact ho
        · simp only [offerShortcut, ho, hh, Bool.false_eq_true, if_false,
            if_true, List.mem_cons] at hv
          rcases hv with rfl | hv
          · exact ho
          · exact ih v hv
      · have ho' : w.windowOpenState = false := by simpa using ho
        simp only [offerShortcut, ho', Bool.false_eq_true, if_false] at hv
        exact ih v hv

/-- C7 witness: a single open view whose handler accepts the shortcut is
offered it, and every offered view is open. -/
theorem C7_shortcut_first_match_witness :
    (⟨"a", true, true, 0, 0, fun _ _ => true⟩ : DView) ∈
      offerShortcut 1 0 [⟨"a", true, true, 0, 0, fun _ _ => true⟩] ∧
    (⟨"a", true, true, 0, 0, fun _ _ => true⟩ : DView).windowOpenState
      = true :=
  ⟨List.mem_singleton.mpr rfl,
   (C7_shortcut_first_match 1 0
      [⟨"a", true, true, 0, 0, fun _ _ => true⟩]).2
     _ (List.mem_singleton.mpr rfl)⟩

/-- C8: on every frame the draw pass invokes the content hook of exactly the
views that are available and open, in registration order, with min-size hints
multiplied by the global scale factor; and the welcome surface is shown if and
only if no registered view is both open and available. -/
theorem C8_draw_pass_welcome :
    ∀ (g : Rat) (views : List DView),
      drawPass g views
        = (views.filter (fun v => v.isAvailable && v.windowOpenState)).map
            (fun v => (v.name, v.minW * g, v.minH * g)) ∧
      (welcomeShown views = true ↔
        ∀ v ∈ views,
          ¬(v.windowOpenState = true ∧ v.isAvailable = true)) := by
  intro g views
  constructor
  · induction views with
    | nil => rfl
    | cons v vs ih =>
      by_cases hav : v.isAvailable = true
      · by_cases hop : v.windowOpenState = true
        · simp [drawPass, List.filter_cons, hav, hop, ih]
        · have hop' : v.windowOpenState = false := by simpa using hop
          simp [drawPass, List.filter_cons, hav, hop', ih]
      · have hav' : v.isAvailable = false := by simpa using hav
        simp [drawPass, List.filter_cons, hav', ih]
  · rw [welcomeShown, anyViewOpen_eq_any]
    simp [List.any_eq_true, not_and]

/-- C8 witness: with an empty registry no view is open and available, and the
welcome surface is shown. -/
theorem C8_draw_pass_welcome_witness :
    welcomeShown [] = true :=
  (C8_draw_pass_welcome 1 []).2.mpr (by intro v hv; cases hv)

/-- C10: the pending-shortcut cell holds at most one shortcut — a later press
overwrites an earlier one; after a frame's dispatch pass the cell is reset to
the sentinel (-1, -1) even when no open view handled the shortcut; and after
one dispatch pass the following pass dispatches nothing, so no shortcut is
offered to views in two different frames and unhandled shortcuts are dropped. -/
theorem C10_pending_shortcut :
    (∀ (s : Int × Int) (k m k2 m2 : Int),
        keyCallback (keyCallback s k m GLFW_PRESS) k2 m2 GLFW_PRESS
          = (k2, m2)) ∧
    (∀ (s : Int × Int) (views : List DView),
        s.1 ≠ -1 → (shortcutDispatchBlock s views).2 = (-1, -1)) ∧
    (∀ (s : Int × Int) (views views2 : List DView),
        (shortcutDispatchBlock
            ((shortcutDispatchBlock s views).2) views2).1 = []) := by
  refine ⟨fun s k m k2 m2 => ?_, fun s views h => ?_, fun s views views2 => ?_⟩
  · simp [keyCallback, GLFW_PRESS]
  · simp [shortcutDispatchBlock, h]
  · by_cases h : s.1 ≠ -1
    · simp [shortcutDispatchBlock, h]
    · push_neg at h
      simp [shortcutDispatchBlock, h]

/-- C10 witness: concrete instantiation at pending shortcut (65, 2) and an
empty registry — the dispatch pass resets the cell to (-1, -1). -/
theorem C10_pending_shortcut_witness :
    ((65 : Int), (2 : Int)).1 ≠ -1 ∧
    (shortcutDispatchBlock (65, 2) []).2 = (-1, -1) :=
  ⟨by decide, C10_pending_shortcut.2.1 (65, 2) [] (by decide)⟩

/-! ## Claim theorems: C5 -/

/-- C5 counterexample: the constructor subscribes the shell to `FileLoaded`
(window.cpp line 85), but the destructor contains no unsubscription for it —
only `SettingsChanged` is unsubscribed (line 143) — so "remove all of the
shell's own event subscriptions" fails. -/
theorem C5_shutdown_counterexample :
    EventId.fileLoaded ∈ shellSubscribedEvents ∧
    TeardownStep.unsubscribe EventId.fileLoaded ∉ destructorTrace [] := by
  constructor <;> decide

/-- C5 (amended): the destructor performs its steps in the claimed strict
order — UI/backend teardown, then settings persistence, then view destruction
and registry clearing, then plugin unload, then subscription removal — and in
particular every view deletion precedes the plugin unload; but of the shell's
three subscriptions only the `SettingsChanged` one is removed. -/
theorem C5_shutdown_amended :
    ∀ views : List String,
      List.Pairwise (fun a b => teardownPhase a ≤ teardownPhase b)
        (destructorTrace views) ∧
      (∀ (i j : ℕ) (nm : String),
          (destructorTrace views)[i]? = some (TeardownStep.deleteView nm) →
          (destructorTrace views)[j]? = some TeardownStep.deinitPlugins →
          i < j) ∧
      (∀ e : EventId,
          TeardownStep.unsubscribe e ∈ destructorTrace views ↔
            e = EventId.settingsChanged) := by
  intro views
  refine ⟨?_, ?_, ?_⟩
  · unfold destructorTrace
    apply List.pairwise_append.mpr
    refine ⟨?_, by decide, ?_⟩
    · apply List.pairwise_append.mpr
      refine ⟨by decide, ?_, ?_⟩
      · refine List.pairwise_map.mpr (List.pairwise_of_forall ?_)
        intro a b
        simp [teardownPhase]
      · intro x hx y hy
        rcases List.mem_map.mp hy with ⟨a, _, rfl⟩
        simp only [List.mem_cons, List.mem_singleton] at hx
        rcases hx with rfl | rfl | rfl | hx
        · simp [teardownPhase]
        · simp [teardownPhase]
        · simp [teardownPhase]
        · simp at hx
    · intro x hx y hy
      have hy2 : 2 ≤ teardownPhase y := by
        simp only [List.mem_cons, List.mem_singleton] at hy
        rcases hy with rfl | rfl | rfl | hy
        · simp [teardownPhase]
        · simp [teardownPhase]
        · simp [teardownPhase]
        · simp at hy
      have hx2 : teardownPhase x ≤ 2 := by
        rcases List.mem_append.mp hx with hx | hx
        · simp only [List.mem_cons, List.mem_singleton] at hx
          rcases hx with rfl | rfl | rfl | hx
          · simp [teardownPhase]
          · simp [teardownPhase]
          · simp [teardownPhase]
          · simp at hx
        · rcases List.mem_map.mp hx with ⟨a, _, rfl⟩
          simp [teardownPhase]
      omega
  · intro i j nm h1 h2
    have hassoc :
        destructorTrace views
          = ([TeardownStep.deinitImGui, TeardownStep.deinitGLFW,
              TeardownStep.storeSettings] ++
              views.map TeardownStep.deleteView) ++
            [TeardownStep.clearViewRegistry, TeardownStep.deinitPlugins,
             TeardownStep.unsubscribe EventId.settingsChanged] := by
      simp [destructorTrace]
    rw [hassoc] at h1 h2
    have hi :
        i < ([TeardownStep.deinitImGui, TeardownStep.deinitGLFW,
              TeardownStep.storeSettings] ++
              views.map TeardownStep.deleteView).length := by
      refine idx_lt_of_not_mem_right h1 ?_
      intro hmem
      simp at hmem
    have hj :
        ([TeardownStep.deinitImGui, TeardownStep.deinitGLFW,
          TeardownStep.storeSettings] ++
          views.map TeardownStep.deleteView).length ≤ j := by
      refine idx_ge_of_not_mem_left h2 ?_
      intro hmem
      simp at hmem
    omega
  · intro e
    simp [destructorTrace]

/-- C5 witness: with one registered view "HexEditor" its deletion sits at
index 3 of the destructor trace and the plugin unload at index 5. -/
theorem C5_shutdown_amended_witness :
    (destructorTrace ["HexEditor"])[3]?
      = some (TeardownStep.deleteView "HexEditor") ∧
    (destructorTrace ["HexEditor"])[5]? = some TeardownStep.deinitPlugins ∧
    3 < 5 :=
  ⟨by decide, by decide,
   (C5_shutdown_amended ["HexEditor"]).2.1 3 5 "HexEditor"
     (by decide) (by decide)⟩

/-! ## Claim theorems: C3 -/

/-- C3 counterexample: in a frame with a pending shortcut and one open,
available view, the shortcut dispatch (inside `frameBegin`, trace index 1)
happens before the view's content draw (trace index 3) — not after all views
have drawn, as the claim states. -/
theorem C3_shortcut_order_counterexample :
    (frameTrace true 1 1
        [⟨"hexview", true, true, 0, 0, fun _ _ => false⟩])[1]?
      = some FrameEv.shortcutDispatch ∧
    (frameTrace true 1 1
        [⟨"hexview", true, true, 0, 0, fun _ _ => false⟩])[3]?
      = some (FrameEv.drawContent "hexview") ∧
    ¬ (3 < 1) := by
  refine ⟨by decide, by decide, by omega⟩

/-- C3 (amended): within a single frame, every deferred call runs before any
view's content-draw hook; and the shortcut dispatch happens at frame begin,
before any view draws its content that frame (it therefore follows the
previous frame's draws, not the current frame's). -/
theorem C3_frame_order_amended :
    ∀ (pending : Bool) (deferredCount : ℕ) (g : Rat) (views : List DView)
      (i j k : ℕ) (nm : String),
      ((frameTrace pending deferredCount g views)[i]?
          = some (FrameEv.deferredRun k) →
        (frameTrace pending deferredCount g views)[j]?
          = some (FrameEv.drawContent nm) →
        i < j) ∧
      ((frameTrace pending deferredCount g views)[i]?
          = some FrameEv.shortcutDispatch →
        (frameTrace pending deferredCount g views)[j]?
          = some (FrameEv.drawContent nm) →
        i < j) := by
  intro pending n g views i j k nm
  have hdraw :
      ∀ {j' : ℕ},
        (frameTrace pending n g views)[j']?
            = some (FrameEv.drawContent nm) →
        (frameBeginTrace pending views ++
            (List.range n).map FrameEv.deferredRun).length ≤ j' := by
    intro j' h
    have h' :
        ((frameBeginTrace pending views ++
            (List.range n).map FrameEv.deferredRun) ++
          ((drawPass g views).map (fun t => FrameEv.drawContent t.1) ++
            [FrameEv.drawCommon]))[j']?
          = some (FrameEv.drawContent nm) := by
      rw [← List.append_assoc]
      exact h
    refine idx_ge_of_not_mem_left h' ?_
    intro hmem
    rcases List.mem_append.mp hmem with hmem | hmem
    · refine not_mem_frameBeginTrace pending views ?_ ?_ ?_ hmem
      · intro n' h; cases h
      · intro h; cases h
      · intro h; cases h
    · rcases mem_deferredSeg hmem with ⟨k', hk'⟩
      cases hk'
  constructor
  · intro h1 h2
    have hi :
        i < (frameBeginTrace pending views ++
              (List.range n).map FrameEv.deferredRun).length := by
      have h1' :
          ((frameBeginTrace pending views ++
              (List.range n).map FrameEv.deferredRun) ++
            ((drawPass g views).map (fun t => FrameEv.drawContent t.1) ++
              [FrameEv.drawCommon]))[i]?
            = some (FrameEv.deferredRun k) := by
        rw [← List.append_assoc]
        exact h1
      refine idx_lt_of_not_mem_right h1' ?_
      intro hmem
      rcases List.mem_append.mp hmem with hmem | hmem
      · rcases mem_drawSeg hmem with ⟨nm', hnm'⟩
        cases hnm'
      · rcases List.mem_singleton.mp hmem with h
        cases h
    exact lt_of_lt_of_le hi (hdraw h2)
  · intro h1 h2
    have hi : i < (frameBeginTrace pending views).length := by
      have h1' :
          (frameBeginTrace pending views ++
            ((List.range n).map FrameEv.deferredRun ++
              ((drawPass g views).map (fun t => FrameEv.drawContent t.1) ++
                [FrameEv.drawCommon])))[i]?
            = some FrameEv.shortcutDispatch := by
        rw [← List.append_assoc, ← List.append_assoc]
        exact h1
      refine idx_lt_of_not_mem_right h1' ?_
      intro hmem
      rcases List.mem_append.mp hmem with hmem | hmem
      · rcases mem_deferredSeg hmem with ⟨k', hk'⟩
        cases hk'
      · rcases List.mem_append.mp hmem with hmem | hmem
        · rcases mem_drawSeg hmem with ⟨nm', hnm'⟩
          cases hnm'
        · rcases List.mem_singleton.mp hmem with h
          cases h
    have hle :
        (frameBeginTrace pending views).length ≤
          (frameBeginTrace pending views ++
            (List.range n).map FrameEv.deferredRun).length := by
      simp
    exact lt_of_lt_of_le (lt_of_lt_of_le hi hle) (hdraw h2)

/-- C3 witness: concrete frame with a pending shortcut, one queued deferred
call and one open, available view — the deferred call (index 2) and the
dispatch (index 1) both precede the content draw (index 3). -/
theorem C3_frame_order_amended_witness :
    (frameTrace true 1 1 [⟨"w", true, true, 1, 1, fun _ _ => false⟩])[2]?
      = some (FrameEv.deferredRun 0) ∧
    (frameTrace true 1 1 [⟨"w", true, true, 1, 1, fun _ _ => false⟩])[3]?
      = some (FrameEv.drawContent "w") ∧
    (2 < 3 ∧ 1 < 3) :=
  ⟨by decide, by decide,
   (C3_frame_order_amended true 1 1
      [⟨"w", true, true, 1, 1, fun _ _ => false⟩] 2 3 0 "w").1
     (by decide) (by decide),
   (C3_frame_order_amended true 1 1
      [⟨"w", true, true, 1, 1, fun _ _ => false⟩] 1 3 0 "w").2
     (by decide) (by decide)⟩

/-! ## Claim theorems: C9 -/

/-- C9 counterexample: the registered views "A" (closed) and "A=1" (open)
have distinct display names, yet feeding the emitted lines back flips "A"
open: the line `A=1=1` written for view "A=1" also matches view "A"'s
`sscanf` format `A=%d` (parsing the integer 1), so the written open state
`false` of "A" is not restored — the write-then-read round-trip fails. -/
theorem C9_settings_roundtrip_counterexample :
    ("A" : String) ≠ "A=1" ∧
    readAllLines [⟨"A", false⟩, ⟨"A=1", true⟩]
        (ImHexSettingsHandler_WriteAll [⟨"A", false⟩, ⟨"A=1", true⟩])
      = [⟨"A", true⟩, ⟨"A=1", true⟩] ∧
    readAllLines [⟨"A", false⟩, ⟨"A=1", true⟩]
        (ImHexSettingsHandler_WriteAll [⟨"A", false⟩, ⟨"A=1", true⟩])
      ≠ [⟨"A", false⟩, ⟨"A=1", true⟩] := by
  refine ⟨by decide, by decide, by decide⟩

/-- C9 (amended): for registered views with distinct display names that are
plain (no `=`, `%` or whitespace characters), the writer emits one
`Name=IntegerValue` line per view under the `[ImHex][General]` header, and
feeding every emitted line back through the line reader — starting from views
with the same names in the same order but arbitrary open states — restores
every view's open state to the value written; a well-formed line whose name
matches no registered view leaves all open states unchanged.  Without the
plain-name restriction the round-trip fails (names containing `=` break it). -/
theorem C9_settings_roundtrip_amended :
    ∀ orig cur : List VState,
      (∀ v ∈ orig, plainName v.name = true) →
      orig.Pairwise (fun a b => a.name ≠ b.name) →
      cur.map VState.name = orig.map VState.name →
      readAllLines cur (ImHexSettingsHandler_WriteAll orig) = orig ∧
      (∀ other tail : String, plainName other = true →
        (∀ v ∈ orig, v.name ≠ other) →
        ImHexSettingsHandler_ReadLine orig (other ++ "=" ++ tail) = orig) := by
  intro orig cur hplain hpw hmap
  have hcurplain : ∀ v ∈ cur, plainName v.name = true := by
    intro v hv
    have hvn : v.name ∈ orig.map VState.name := by
      rw [← hmap]
      exact List.mem_map.mpr ⟨v, hv, rfl⟩
    rcases List.mem_map.mp hvn with ⟨b, hb, hbn⟩
    rw [← hbn]
    exact hplain b hb
  constructor
  · show ("[ImHex][General]" :: (orig.map viewLine ++ [""])).foldl
        ImHexSettingsHandler_ReadLine cur = orig
    rw [List.foldl_cons]
    have hheader :
        ImHexSettingsHandler_ReadLine cur "[ImHex][General]" = cur := by
      show cur.map (readLineView "[ImHex][General]") = cur
      exact map_self_of _ cur (fun v hv => readLineView_of_none
        (sscanfNameEq_no_eq_sign (hcurplain v hv) (by decide)))
    rw [hheader, List.foldl_append, readBody orig cur hplain hpw hmap,
      List.foldl_cons, List.foldl_nil]
    show orig.map (readLineView "") = orig
    exact map_self_of _ orig (fun v hv => readLineView_of_none
      (sscanfNameEq_no_eq_sign (hplain v hv) (by decide)))
  · intro other tail hother hne
    show orig.map (readLineView (other ++ "=" ++ tail)) = orig
    exact map_self_of _ orig (fun v hv => readLineView_of_none
      (sscanfNameEq_mismatch (hplain v hv) hother (hne v hv) tail))

/-- C9 witness: two plain-named views round-trip — reading the emitted lines
back into views with the same names but flipped open states restores the
written open states. -/
theorem C9_settings_roundtrip_amended_witness :
    (∀ v ∈ ([⟨"PatternEditor", true⟩, ⟨"HexView", false⟩] : List VState),
        plainName v.name = true) ∧
    ([⟨"PatternEditor", true⟩, ⟨"HexView", false⟩] : List VState).Pairwise
        (fun a b => a.name ≠ b.name) ∧
    ([⟨"PatternEditor", false⟩, ⟨"HexView", true⟩] : List VState).map
        VState.name
      = ([⟨"PatternEditor", true⟩, ⟨"HexView", false⟩] : List VState).map
          VState.name ∧
    readAllLines [⟨"PatternEditor", false⟩, ⟨"HexView", true⟩]
        (ImHexSettingsHandler_WriteAll
          [⟨"PatternEditor", true⟩, ⟨"HexView", false⟩])
      = [⟨"PatternEditor", true⟩, ⟨"HexView", false⟩] :=
  ⟨by decide, by decide, by decide,
   (C9_settings_roundtrip_amended
      [⟨"PatternEditor", true⟩, ⟨"HexView", false⟩]
      [⟨"PatternEditor", false⟩, ⟨"HexView", true⟩]
      (by decide) (by decide) (by decide)).1⟩

end ImHexWindow
